import Mathlib

/-!
Shallow embedding of `src/qsimov_cloud_client/qsimov_cloud_client.py`.

The Python module is a client-side configuration/serialization layer:
`parse_number` turns text into one of three numeric regimes (an exact
sympy rational, the float infinity sentinel, the sympy NaN sentinel);
`QsimovCloudClient` holds a mutable `_data` dictionary mutated by the
setter methods, and `_send_request` validates and shapes the dictionary
into a JSON payload; `SuperpositionCircuit` decodes the configured state
back into both the index and the binary form.

Numbers are embedded as `Int`/`Nat`/`ℚ` (Python integers are unbounded,
and `fractions.Fraction`/`sympy.Rational` store an exact rational in
lowest terms with positive denominator, which is exactly the `Rat`
normal form).  Fallible Python code (a `raise`) is embedded as
`Except Err` / `Option` results; a raise happens before any field
assignment in every modelled method, so the state on failure is the
unchanged input state.
-/

namespace Qsimov

attribute [local semireducible] Rat.mul Rat.inv Rat.add Rat.sub Rat.ofScientific

/-- The error taxonomy: `invalidArgument` models a `ValueError` raised by a
setter, `preconditionError` a `ValueError` raised by `_send_request` before
posting, and `parseError` a failure inside `parse_number`
(sympy raises `TypeError`/`ZeroDivisionError` on bad rational text). -/
inductive Err where
  | invalidArgument
  | preconditionError
  | parseError
deriving DecidableEq

deriving instance DecidableEq for Except

/-- The three numeric regimes produced by `parse_number` (line 236):
`Finite p q` models a `sympy.Rational` with stored numerator `p` and
denominator `q` (always in lowest terms with `q > 0`, the invariant the
`fractions.Fraction` constructor maintains); `PositiveInfinity` models
the Python `float('inf')` sentinel; `Undefined` models `sympy.nan`
(the value of `sp.Rational(0, 0)`). -/
inductive ExactNumber where
  | Finite (p q : Int)
  | PositiveInfinity
  | Undefined
deriving DecidableEq

/-- Python's strict `>` on the values `parse_number` can return, as used on
line 145: between rationals it is the numeric order; `float('inf')` compares
greater than every `sympy.Rational` and not greater than itself; comparisons
involving `sympy.nan` evaluate to `False` (they are short-circuited away by
the guard on line 145 anyway). -/
def enGt : ExactNumber → ExactNumber → Bool
  | .Finite a b, .Finite c d => decide ((c : ℚ) / (d : ℚ) < (a : ℚ) / (b : ℚ))
  | .PositiveInfinity, .Finite _ _ => true
  | .Finite _ _, .PositiveInfinity => false
  | .PositiveInfinity, .PositiveInfinity => false
  | .Undefined, _ => false
  | _, .Undefined => false

/-- Whitespace characters of the Python regex class backslash-s (ASCII). -/
def isWS (c : Char) : Bool :=
  c = ' ' || c = '\t' || c = '\n' || c = '\r' || c = '\x0b' || c = '\x0c'

/-- ASCII decimal digit test. -/
def isDigitCh (c : Char) : Bool := '0' ≤ c && c ≤ '9'

/-- Numeric value of an ASCII digit character. -/
def charDigit (c : Char) : Nat := c.toNat - 48

/-- The value of a digit string in base `b`, most significant digit first
(how Python's `int(text, b)` reads a digit run). -/
def valBase (b : Nat) (cs : List Char) : Nat :=
  cs.foldl (fun a c => b * a + charDigit c) 0

/-- The ASCII character of a digit value below ten. -/
def digitChar : Nat → Char
  | 0 => '0' | 1 => '1' | 2 => '2' | 3 => '3' | 4 => '4'
  | 5 => '5' | 6 => '6' | 7 => '7' | 8 => '8' | 9 => '9'
  | _ => '*'

/-- Decimal digits of a natural number, most significant first
(`[]` for zero), mirroring Python's `str(int)` digit run. -/
def natDecimals : Nat → List Char
  | 0 => []
  | n+1 => natDecimals ((n+1) / 10) ++ [digitChar ((n+1) % 10)]
decreasing_by exact Nat.div_lt_self (Nat.succ_pos n) (by norm_num)

/-- Binary digits of a natural number, most significant first
(`[]` for zero), mirroring Python's `format(int, "b")` digit run. -/
def natBinary : Nat → List Char
  | 0 => []
  | n+1 => natBinary ((n+1) / 2) ++ [digitChar ((n+1) % 2)]
decreasing_by exact Nat.div_lt_self (Nat.succ_pos n) (by norm_num)

/-- Python `str` of a natural number. -/
def natChars (n : Nat) : List Char :=
  if n = 0 then ['0'] else natDecimals n

/-- Python `str` of an unbounded integer. -/
def intChars : Int → List Char
  | .ofNat n => natChars n
  | .negSucc m => '-' :: natChars (m + 1)

/-- Strip leading and trailing regex whitespace from a character list. -/
def trimWS (l : List Char) : List Char :=
  ((l.dropWhile isWS).reverse.dropWhile isWS).reverse

/-- The numeric value denoted by integer digits `ip`, fractional digits `dp`
and a decimal exponent `e`, as `fractions.Fraction` computes it from the
matched groups of its literal regex. -/
def ratOfParts (ip dp : List Char) (e : Int) : ℚ :=
  ((valBase 10 (ip ++ dp) : ℚ) / (10 : ℚ) ^ dp.length) * (10 : ℚ) ^ e

/-- Parse the optional exponent suffix `E[-+]?digits` (case-insensitive)
of the `fractions.Fraction` literal grammar; the empty remainder denotes
exponent zero, anything else is a mismatch. -/
def parseExp (l : List Char) : Option Int :=
  match l with
  | [] => some 0
  | c :: rest =>
    if c = 'e' ∨ c = 'E' then
      match rest with
      | [] => none
      | d :: ds =>
        if d = '+' then
          if ds ≠ [] ∧ ds.all isDigitCh then some (valBase 10 ds) else none
        else if d = '-' then
          if ds ≠ [] ∧ ds.all isDigitCh then some (-(valBase 10 ds : Int)) else none
        else
          if (d :: ds).all isDigitCh then some (valBase 10 (d :: ds)) else none
    else none

/-- The unsigned core of the `fractions.Fraction` string grammar
(the `/denominator` alternative never fires here because sympy splits on
the slash first): a digit run, an optional `.` with a fractional digit
run, and an optional exponent, with the lookahead requiring at least one
digit in the integer or fractional part. -/
def fracLitCore (l : List Char) : Option ℚ :=
  let ip := l.takeWhile isDigitCh
  let r1 := l.dropWhile isDigitCh
  match r1 with
  | '.' :: r2 =>
    let dp := r2.takeWhile isDigitCh
    let r3 := r2.dropWhile isDigitCh
    if ip = [] ∧ dp = [] then none
    else (parseExp r3).map (fun e => ratOfParts ip dp e)
  | _ =>
    if ip = [] then none
    else (parseExp r1).map (fun e => ratOfParts ip [] e)

/-- `fractions.Fraction(text)` on slash-free text: optional surrounding
whitespace, an optional sign, then the unsigned literal core.  Returns the
exact rational value (the `Fraction` constructor normalizes it; `ℚ` has the
same lowest-terms, positive-denominator normal form). -/
def fracLit (l : List Char) : Option ℚ :=
  match trimWS l with
  | [] => none
  | c :: rest =>
    if c = '+' then fracLitCore rest
    else if c = '-' then (fracLitCore rest).map (fun q => -q)
    else fracLitCore (c :: rest)

/-- Split a character list at its single `'/'`, when one is present
(`str.rsplit('/', 1)` on a string holding at most one slash). -/
def splitOnSlash : List Char → Option (List Char × List Char)
  | [] => none
  | c :: rest =>
    if c = '/' then some ([], rest)
    else
      match splitOnSlash rest with
      | none => none
      | some (a, b) => some (c :: a, b)

/-- `sympy.Rational(text)` (the string path of `Rational.__new__`): reject
more than one slash, delete every space, split at the slash when present
and divide the two `fractions.Fraction` parts (a zero denominator raises),
otherwise read the whole text as one `Fraction` literal.  `none` models
the raised `TypeError`/`ValueError`/`ZeroDivisionError`. -/
def ratFromString (s : String) : Option ℚ :=
  let cs := s.data
  if 1 < cs.count '/' then none
  else
    let cs := cs.filter (fun c => c ≠ ' ')
    match splitOnSlash cs with
    | none => fracLit cs
    | some (a, b) =>
      match fracLit a, fracLit b with
      | some x, some y => if y = 0 then none else some (x / y)
      | _, _ => none

/-- Python `str.lower()` restricted to the ASCII case mapping (the only
comparisons made are against the ASCII literals `"nan"` and `"inf"`, on
which the full Unicode mapping agrees). -/
def lowerStr (s : String) : String := ⟨s.data.map Char.toLower⟩

/-- `parse_number` (line 236) on the stringified input: `"nan"`
(case-insensitive) or `"0/0"` gives `sp.Rational(0, 0) = sympy.nan`;
`"inf"` (case-insensitive) gives `float('inf')`; everything else is read
by `sympy.Rational`, whose stored numerator/denominator pair the `Finite`
constructor records.  `none` models a raised exception (`ParseError`). -/
def parse_number (x : String) : Option ExactNumber :=
  if lowerStr x = "nan" ∨ x = "0/0" then some .Undefined
  else if lowerStr x = "inf" then some .PositiveInfinity
  else
    match ratFromString x with
    | some q => some (.Finite q.num (q.den : Int))
    | none => none

/-- Python `str()` of a value `parse_number` can produce: sympy prints a
`Rational` as `p` when the denominator is one and as `p/q` otherwise;
`str(float('inf'))` is `"inf"`; `str(sympy.nan)` is `"nan"`.  This is the
wire-text rendering `_send_request` applies on lines 63-68. -/
def renderEN : ExactNumber → String
  | .Finite p q => if q = 1 then ⟨intChars p⟩ else ⟨intChars p ++ '/' :: intChars q⟩
  | .PositiveInfinity => "inf"
  | .Undefined => "nan"

/-- Python `str()` of an optional stored number (`str(None)` is `"None"`,
reachable only on states that break the pairing invariant). -/
def renderOptEN : Option ExactNumber → String
  | some e => renderEN e
  | none => "None"

/-- The `_data` dictionary of `QsimovCloudClient` (lines 26-37): every key
the constructor installs, with `Option` marking the `None`-able entries.
`ancilla_mode` and `qasm_version` always hold a string (defaults
`"clean"` and `"2.0"`). -/
structure Data where
  token : String
  metric : Option String
  n_qubits : Option Int
  state : Option Int
  state_bin : Option String
  distances : Option (List ExactNumber)
  min_range : Option ExactNumber
  max_range : Option ExactNumber
  with_nan : Option Bool
  ancilla_mode : String
  qasm_version : String
deriving DecidableEq

/-- The dictionary `__init__` builds after accepting the token (lines 26-37). -/
def initData (token : String) : Data :=
  { token := token, metric := none, n_qubits := none, state := none,
    state_bin := none, distances := none, min_range := none,
    max_range := none, with_nan := none, ancilla_mode := "clean",
    qasm_version := "2.0" }

/-- `QsimovCloudClient.__init__` (line 23): a non-string or empty token
raises `ValueError`, otherwise the default dictionary is installed
(non-string tokens are outside the embedding's input type). -/
def mkClient (token : String) : Except Err Data :=
  if token = "" then .error .invalidArgument else .ok (initData token)

/-- `set_metric` (line 98): an empty metric raises, otherwise only the
`metric` entry is replaced. -/
def set_metric (st : Data) (metric : String) : Except Err Data :=
  if metric = "" then .error .invalidArgument
  else .ok { st with metric := some metric }

/-- The `_ancilla_modes` list (line 17). -/
def ancillaModes : List String := ["clean", "noancilla", "garbage", "borrowed", "burnable"]

/-- `set_ancilla_mode` (line 103). -/
def set_ancilla_mode (st : Data) (mode : String) : Except Err Data :=
  if mode ∈ ancillaModes then .ok { st with ancilla_mode := mode }
  else .error .invalidArgument

/-- `set_qasm_version` (line 108). -/
def set_qasm_version (st : Data) (v : String) : Except Err Data :=
  if v = "2.0" ∨ v = "3.0" then .ok { st with qasm_version := v }
  else .error .invalidArgument

/-- `can_have_nan` (line 137); the `isinstance(value, bool)` guard is
subsumed by the `Bool` input type. -/
def can_have_nan (st : Data) (value : Bool) : Except Err Data :=
  .ok { st with with_nan := some value }

/-- Python `re.match` of the module pattern `^[01]+$` (line 12): a
non-empty run of `0`/`1` characters; the regex `$` also accepts one
trailing newline after the run. -/
def regexBinMatch (b : String) : Bool :=
  let cs := b.data
  let core := if cs.getLast? = some '\n' then cs.dropLast else cs
  decide (core ≠ []) && core.all (fun c => c = '0' || c = '1')

/-- The exact value of Python `2 ** n` for an unbounded integer `n`: an
integer for `n ≥ 0`, and otherwise the IEEE-754 double CPython's float
power produces — `2^n` is exactly representable down to the smallest
subnormal `2^-1074`, and for `n ≤ -1075` the result underflows to `0.0`
(the value `2^-1075` is the tie between `0.0` and `2^-1074`, rounded to
the even candidate `0.0`).  Python compares this number with an `int`
exactly, so the comparison is modelled on `ℚ`. -/
def pyTwoPow (n : Int) : ℚ :=
  if 0 ≤ n then (2 : ℚ) ^ n.toNat
  else if -1074 ≤ n then ((2 : ℚ) ^ (-n).toNat)⁻¹
  else 0

/-- `set_state` (line 113).  Without `state_bin`, both `num_qubits` and
`state` are required and the guard is Python's
`state < 0 or state >= 2**num_qubits`, with `2**num_qubits` the exact
float value `pyTwoPow num_qubits` (an integer for a non-negative
exponent, a positive float below one down to the underflow threshold,
and `0.0` beyond it — where the guard therefore always fires).  With
`state_bin`, the string must match `^[01]+$`; `num_qubits`/`state` are
then ignored with a printed warning.  Each success ends by overwriting
the whole state-encoding triple (lines 122-124 and 133-135). -/
def set_state (st : Data) (state_bin : Option String)
    (num_qubits state : Option Int) : Except Err Data :=
  match state_bin with
  | none =>
    match num_qubits, state with
    | some n, some s =>
      if s < 0 ∨ pyTwoPow n ≤ (s : ℚ) then .error .invalidArgument
      else .ok { st with n_qubits := some n, state := some s, state_bin := none }
    | _, _ => .error .invalidArgument
  | some b =>
    if regexBinMatch b then
      .ok { st with n_qubits := none, state := none, state_bin := some b }
    else .error .invalidArgument

/-- `set_range` (line 142): parse both endpoints (a parse failure
propagates before any assignment), raise when neither endpoint equals
`sympy.nan` and `min > max` under `enGt`, otherwise overwrite the whole
distance-domain triple (lines 149-151). -/
def set_range (st : Data) (mn mx : String) : Except Err Data :=
  match parse_number mn with
  | none => .error .parseError
  | some pmn =>
    match parse_number mx with
    | none => .error .parseError
    | some pmx =>
      if pmn ≠ .Undefined ∧ pmx ≠ .Undefined ∧ enGt pmn pmx then
        .error .invalidArgument
      else
        .ok { st with distances := none, min_range := some pmn, max_range := some pmx }

/-- The argument of `set_distances`: a Python `str` (an `Iterable` the
guard rejects), some other iterable — modelled by the list of its
stringified elements — or a non-iterable object. -/
inductive DistArg where
  | str (s : String)
  | seq (xs : List String)
  | nonIterable
deriving DecidableEq

/-- Parse every element of a list in input order, failing at the first
element sympy rejects (the evaluation order of the list comprehension
`[parse_number(i) for i in distances]`). -/
def mapParse : List String → Option (List ExactNumber)
  | [] => some []
  | x :: xs =>
    match parse_number x, mapParse xs with
    | some e, some es => some (e :: es)
    | _, _ => none

/-- `set_distances` (line 153): reject non-iterables and strings, parse
every element in order (`tuple([parse_number(i) for i in distances])`;
a parse failure propagates before any assignment), then overwrite the
whole distance-domain triple.  There is no emptiness check. -/
def set_distances (st : Data) (arg : DistArg) : Except Err Data :=
  match arg with
  | .nonIterable => .error .invalidArgument
  | .str _ => .error .invalidArgument
  | .seq xs =>
    match mapParse xs with
    | none => .error .parseError
    | some es =>
      .ok { st with distances := some es, min_range := none, max_range := none }

/-- The `_services` list (line 13). -/
def services : List String :=
  ["extra_qubits_service", "distances_range_service", "circuit_service",
   "total_states_superposed_service"]

/-- The shaped request body `_send_request` posts: each `none` field is a
key `del`-eted from the copied dictionary, string number fields hold the
wire text produced by `str()`. -/
structure Payload where
  token : String
  metric : Option String
  n_qubits : Option Int
  state : Option Int
  state_bin : Option String
  distances : Option (List String)
  min_range : Option String
  max_range : Option String
  with_nan : Option Bool
  ancilla_mode : Option String
  qasm_version : Option String
  service : String
deriving DecidableEq

/-- Lines 76-80 of `_send_request`: keep exactly one state-encoding form
in the payload — the binary string when present, otherwise the
index pair. -/
def shapeState (pl : Payload) : Payload :=
  match pl.state_bin with
  | none => pl
  | some _ => { pl with state := none, n_qubits := none }

/-- Lines 61-68 of `_send_request`: the copied dictionary after the
distance-domain shaping for the three-service group — an absent distance
list sends the range rendered as wire text, an active list sends the
rendered tokens and drops the range keys. -/
def groupPayload (st : Data) (service : String) : Payload :=
  match st.distances with
  | none =>
    { token := st.token, metric := st.metric, n_qubits := st.n_qubits,
      state := st.state, state_bin := st.state_bin, distances := none,
      min_range := some (renderOptEN st.min_range),
      max_range := some (renderOptEN st.max_range),
      with_nan := st.with_nan, ancilla_mode := some st.ancilla_mode,
      qasm_version := some st.qasm_version, service := service }
  | some ds =>
    { token := st.token, metric := st.metric, n_qubits := st.n_qubits,
      state := st.state, state_bin := st.state_bin,
      distances := some (ds.map renderEN), min_range := none,
      max_range := none, with_nan := st.with_nan,
      ancilla_mode := some st.ancilla_mode,
      qasm_version := some st.qasm_version, service := service }

/-- Lines 69-75 of `_send_request`: the copied dictionary after deleting
`with_nan`, `distances`, `min_range`, `max_range`, `ancilla_mode` and
`qasm_version` for the remaining service. -/
def rangeServicePayload (st : Data) (service : String) : Payload :=
  { token := st.token, metric := st.metric, n_qubits := st.n_qubits,
    state := st.state, state_bin := st.state_bin, distances := none,
    min_range := none, max_range := none, with_nan := none,
    ancilla_mode := none, qasm_version := none, service := service }

/-- `_send_request` (line 39) up to the `_post` call: the precondition
checks in source order (metric, state, known service, and for the
extra-qubits/circuit/total-superposed group also `with_nan` and a
distance-domain form), then the field shaping of lines 48-81.  The
network call itself is external; the embedding returns the payload that
would be posted. -/
def sendRequest (st : Data) (service : String) : Except Err Payload :=
  if st.metric = none then .error .preconditionError
  else if st.state_bin = none ∧ st.n_qubits = none then .error .preconditionError
  else if service ∉ services then .error .preconditionError
  else if service = "circuit_service" ∨ service = "total_states_superposed_service"
      ∨ service = "extra_qubits_service" then
    if st.with_nan = none then .error .preconditionError
    else if st.distances = none ∧ st.min_range = none then .error .preconditionError
    else .ok (shapeState (groupPayload st service))
  else .ok (shapeState (rangeServicePayload st service))

/-- The response fields `SuperpositionCircuit.__init__` copies out of
`res` (lines 196-198). -/
structure RespData where
  qasm_circuit : String
  extra_qubits : Int
  total_states_superposed : Int
deriving DecidableEq

/-- The decoded result object built by `SuperpositionCircuit.__init__`
(line 180). -/
structure SCircuit where
  metric : Option String
  n_qubits : Int
  state : Int
  bin : String
  distances : Option (List ExactNumber)
  min_range : Option ExactNumber
  max_range : Option ExactNumber
  with_nan : Option Bool
  qasm_version : String
  ancilla_mode : String
  qasm : String
  extra_qubits : Int
  total_states_superposed : Int
deriving DecidableEq

/-- Python `("{:0" + str(n) + "b}").format(s)`: the binary digits of `s`
zero-padded on the left to width `n` (a negative `s` puts the minus sign
before the padding; a negative `n` makes the format spec invalid and
raises, modelled by the caller). -/
def formatBin (width : Nat) (s : Int) : String :=
  match s with
  | .ofNat v =>
    let digs := if v = 0 then ['0'] else natBinary v
    ⟨List.replicate (width - digs.length) '0' ++ digs⟩
  | .negSucc m =>
    let digs := if m + 1 = 0 then ['0'] else natBinary (m + 1)
    ⟨'-' :: (List.replicate (width - 1 - digs.length) '0' ++ digs)⟩

/-- Python `int(text, 2)` on a string matched by `^[01]+$`: strip the
optional trailing newline the regex tolerates, then read the binary
digit run. -/
def intOfBin (cs : List Char) : Nat :=
  valBase 2 (if cs.getLast? = some '\n' then cs.dropLast else cs)

/-- `SuperpositionCircuit.__init__` (line 180): when no binary form is
stored, both `n_qubits` and `state` must be present (otherwise Python
raises formatting/`TypeError` errors, and a negative `n_qubits` makes
the format spec invalid) and the binary string is derived by
zero-padding; when the binary form is stored, `n_qubits`/`state` are
derived from its length and its base-2 value. -/
def superpositionCircuit (d : Data) (res : RespData) : Option SCircuit :=
  match d.state_bin with
  | some b =>
    some { metric := d.metric, n_qubits := (b.data.length : Int),
           state := (intOfBin b.data : Int), bin := b,
           distances := d.distances, min_range := d.min_range,
           max_range := d.max_range, with_nan := d.with_nan,
           qasm_version := d.qasm_version, ancilla_mode := d.ancilla_mode,
           qasm := res.qasm_circuit, extra_qubits := res.extra_qubits,
           total_states_superposed := res.total_states_superposed }
  | none =>
    match d.n_qubits, d.state with
    | some n, some s =>
      if n < 0 then none
      else
        some { metric := d.metric, n_qubits := n, state := s,
               bin := formatBin n.toNat s,
               distances := d.distances, min_range := d.min_range,
               max_range := d.max_range, with_nan := d.with_nan,
               qasm_version := d.qasm_version, ancilla_mode := d.ancilla_mode,
               qasm := res.qasm_circuit, extra_qubits := res.extra_qubits,
               total_states_superposed := res.total_states_superposed }
    | _, _ => none

/-- One mutating call on the client: each constructor is one public
setter with its arguments (`_send_request` never mutates `_data` — it
works on a copy, line 48 — so operations are not events). -/
inductive Event where
  | metric (m : String)
  | ancilla (m : String)
  | qasm (v : String)
  | state (bin : Option String) (nq st : Option Int)
  | nan (b : Bool)
  | range (mn mx : String)
  | dists (arg : DistArg)
deriving DecidableEq

/-- Run one setter; a raise leaves the dictionary unchanged (every
modelled raise happens before the first assignment of its method). -/
def applyEvent (st : Data) (e : Event) : Data :=
  let r : Except Err Data :=
    match e with
    | .metric m => set_metric st m
    | .ancilla m => set_ancilla_mode st m
    | .qasm v => set_qasm_version st v
    | .state b nq s => set_state st b nq s
    | .nan b => can_have_nan st b
    | .range mn mx => set_range st mn mx
    | .dists arg => set_distances st arg
  match r with
  | .ok st' => st'
  | .error _ => st

/-- Run a sequence of setter calls from a given dictionary. -/
def runEvents (st : Data) (es : List Event) : Data :=
  es.foldl applyEvent st

/-- The dictionaries reachable from a freshly constructed client by any
sequence of setter calls (failed calls leave the state unchanged). -/
def Reachable (st : Data) : Prop :=
  ∃ token es, st = runEvents (initData token) es

/-! ## Theorems -/

/-- The extra-qubits / circuit / total-superposed service group of
lines 49-51. -/
def isGroup (svc : String) : Prop :=
  svc = "circuit_service" ∨ svc = "total_states_superposed_service"
    ∨ svc = "extra_qubits_service"

/-- C7: every operation invocation fails with `PreconditionError` — before
any payload is assembled or any network activity occurs (the embedding of
`_send_request` returns the error instead of a payload, and `_post` is only
reached after all checks) — when the metric is unset or no state form is
set; and for the extra-qubits/circuit/total-superposed group also when
`with_nan` is unset or no distance-domain form is set, regardless of how
fully the rest of the state is configured. -/
theorem C7_operation_preconditions (st : Data) (svc : String) :
    (st.metric = none → sendRequest st svc = .error .preconditionError) ∧
    (st.state_bin = none → st.n_qubits = none →
      sendRequest st svc = .error .preconditionError) ∧
    (isGroup svc → st.with_nan = none →
      sendRequest st svc = .error .preconditionError) ∧
    (isGroup svc → st.distances = none → st.min_range = none →
      sendRequest st svc = .error .preconditionError) := by
  refine ⟨?_, ?_, ?_, ?_⟩
  · intro h
    simp [sendRequest, h]
  · intro h1 h2
    unfold sendRequest
    split_ifs <;> simp_all
  · intro hg hw
    unfold sendRequest
    split_ifs <;> simp_all [isGroup, services]
  · intro hg hd hm
    unfold sendRequest
    split_ifs <;> simp_all [isGroup, services]

/-- Witness for C7 at a concrete state: a fresh client with no metric. -/
theorem C7_witness :
    sendRequest (initData "t") "circuit_service" = .error .preconditionError :=
  (C7_operation_preconditions (initData "t") "circuit_service").1 rfl

/-- C2, counterexample: the claim says an empty sequence fails with
`InvalidArgument`, but `set_distances` has no emptiness check — the empty
list is accepted and stored as the empty tuple. -/
theorem C2_counterexample :
    set_distances (initData "t") (.seq []) =
      .ok { (initData "t") with
            distances := some [], min_range := none, max_range := none } ∧
    set_distances (initData "t") (.seq []) ≠ .error .invalidArgument := by
  constructor <;> decide

/-- C2, amended: `set_distances` fails with `InvalidArgument` exactly when
the argument is a string or not iterable (an empty sequence is accepted);
on any failure — including a parse failure of an element — the state is
unchanged, because every raise precedes the first assignment (the
embedding returns only the error); on success the stored tuple is the
parse of every element in input order. -/
theorem C2_set_distances (st : Data) (arg : DistArg) :
    (set_distances st arg = .error .invalidArgument ↔
      arg = .nonIterable ∨ ∃ s, arg = .str s) ∧
    (∀ xs es, arg = .seq xs → mapParse xs = some es →
      set_distances st arg =
        .ok { st with
              distances := some es, min_range := none, max_range := none }) := by
  constructor
  · cases arg with
    | str s => simp [set_distances]
    | nonIterable => simp [set_distances]
    | seq xs =>
      simp only [set_distances]
      cases h : mapParse xs <;> simp [h]
  · rintro xs es rfl hp
    simp [set_distances, hp]

/-- Witness for C2 at a concrete argument list. -/
theorem C2_witness :
    set_distances (initData "t") (.seq ["1/2", "inf"]) =
      .ok { (initData "t") with
            distances := some [.Finite 1 2, .PositiveInfinity]
            min_range := none, max_range := none } :=
  (C2_set_distances (initData "t") (.seq ["1/2", "inf"])).2
    ["1/2", "inf"] [.Finite 1 2, .PositiveInfinity] rfl (by decide)

/-- C10: when `set_state` is called with a binary string, the
`num_qubits` and `state` arguments are ignored entirely (only a warning
is printed): the result is identical to the call with the binary string
alone, whatever the ignored arguments hold. -/
theorem C10_ignored_arguments (st : Data) (b : String)
    (hb : regexBinMatch b = true) (nq s : Option Int) :
    set_state st (some b) nq s = set_state st (some b) none none ∧
    set_state st (some b) nq s =
      .ok { st with
            n_qubits := none, state := none, state_bin := some b } := by
  refine ⟨rfl, ?_⟩
  simp [set_state, hb]

/-- Witness for C10 at a concrete binary string and ignored arguments. -/
theorem C10_witness :
    set_state (initData "t") (some "01") (some 7) (some 3) =
      .ok { (initData "t") with
            n_qubits := none, state := none, state_bin := some "01" } :=
  (C10_ignored_arguments (initData "t") "01" (by decide) (some 7) (some 3)).2

/-- C1, counterexample: the claim says the call succeeds whenever the
parsed minimum is `PositiveInfinity`, but Python's `float('inf')`
compares greater than any finite `sympy.Rational`, so
`set_range(("inf", "2"))` raises `ValueError`. -/
theorem C1_counterexample :
    parse_number "inf" = some .PositiveInfinity ∧
    parse_number "2" = some (.Finite 2 1) ∧
    set_range (initData "t") "inf" "2" = .error .invalidArgument := by
  refine ⟨by decide, by decide, ?_⟩
  decide

/-- C1, amended: for endpoints accepted by the parser, `setDistanceRange`
fails with `InvalidArgument` exactly when neither parsed endpoint is
`Undefined` and `min > max` in the order that extends the finite
rationals with `PositiveInfinity` strictly above every finite value
(so an `Undefined` endpoint always succeeds, but an infinite minimum
over a finite maximum fails); otherwise it succeeds and overwrites the
distance-domain triple, and on failure the state is unchanged (the raise
precedes every assignment; the embedding returns only the error). -/
theorem C1_set_range (st : Data) (mn mx : String) (pmn pmx : ExactNumber)
    (h1 : parse_number mn = some pmn) (h2 : parse_number mx = some pmx) :
    (set_range st mn mx = .error .invalidArgument ↔
      pmn ≠ .Undefined ∧ pmx ≠ .Undefined ∧ enGt pmn pmx = true) ∧
    (¬(pmn ≠ .Undefined ∧ pmx ≠ .Undefined ∧ enGt pmn pmx = true) →
      set_range st mn mx =
        .ok { st with
              distances := none, min_range := some pmn,
              max_range := some pmx }) := by
  constructor
  · simp only [set_range, h1, h2]
    split_ifs with h <;> simp_all
  · intro h
    simp only [set_range, h1, h2]
    split_ifs
    rfl

/-- Witness for C1 at concrete endpoints: both finite, `min > max`. -/
theorem C1_witness :
    set_range (initData "t") "5" "2" = .error .invalidArgument :=
  (C1_set_range (initData "t") "5" "2" (.Finite 5 1) (.Finite 2 1)
    (by decide) (by decide)).1.mpr (by decide)

/-- The invariant every reachable `_data` dictionary satisfies: the two
state-encoding forms are mutually exclusive and the index pair is set or
cleared together; the two distance-domain forms are mutually exclusive
and the range pair is set or cleared together; a stored index form is in
range. -/
def StateInv (st : Data) : Prop :=
  (st.state_bin = none ∨ (st.n_qubits = none ∧ st.state = none)) ∧
  (st.n_qubits = none ↔ st.state = none) ∧
  (st.distances = none ∨ (st.min_range = none ∧ st.max_range = none)) ∧
  (st.min_range = none ↔ st.max_range = none) ∧
  (∀ n s, st.n_qubits = some n → st.state = some s →
    0 ≤ s ∧ s < (2 : Int) ^ n.toNat)

theorem stateInv_init (token : String) : StateInv (initData token) := by
  simp [StateInv, initData]

theorem pyTwoPow_le_one_of_neg {n : Int} (h : n < 0) : pyTwoPow n ≤ 1 := by
  rw [pyTwoPow, if_neg (by omega)]
  split_ifs
  · refine inv_le_one_of_one_le₀ ?_
    calc (1 : ℚ) = 1 ^ (-n).toNat := (one_pow _).symm
    _ ≤ 2 ^ (-n).toNat := pow_le_pow_left₀ (by norm_num) (by norm_num) _
  · norm_num

/-- A successful index-form `set_state` stores a pair inside
`[0, 2^max(numQubits, 0))`: for a non-negative exponent that is the
guard itself, and for a negative exponent the accepted `state` is below
the positive float `2**num_qubits < 1`, hence below `2^0 = 1`. -/
theorem set_state_ok_bounds {n s : Int}
    (h : ¬(s < 0 ∨ pyTwoPow n ≤ (s : ℚ))) :
    0 ≤ s ∧ s < (2 : Int) ^ n.toNat := by
  push_neg at h
  obtain ⟨h0, h1⟩ := h
  refine ⟨h0, ?_⟩
  by_cases hn : 0 ≤ n
  · rw [pyTwoPow, if_pos hn] at h1
    exact_mod_cast h1
  · push_neg at hn
    have htn : n.toNat = 0 := Int.toNat_of_nonpos hn.le
    rw [htn, pow_zero]
    have hlt : (s : ℚ) < 1 := lt_of_lt_of_le h1 (pyTwoPow_le_one_of_neg hn)
    exact_mod_cast hlt

theorem stateInv_applyEvent (st : Data) (e : Event) (h : StateInv st) :
    StateInv (applyEvent st e) := by
  obtain ⟨h1, h2, h3, h4, h5⟩ := h
  cases e with
  | metric m =>
    simp only [applyEvent, set_metric]
    split_ifs <;> exact ⟨h1, h2, h3, h4, h5⟩
  | ancilla m =>
    simp only [applyEvent, set_ancilla_mode]
    split_ifs <;> exact ⟨h1, h2, h3, h4, h5⟩
  | qasm v =>
    simp only [applyEvent, set_qasm_version]
    split_ifs <;> exact ⟨h1, h2, h3, h4, h5⟩
  | nan b =>
    exact ⟨h1, h2, h3, h4, h5⟩
  | state bin nq s =>
    cases bin with
    | some b =>
      simp only [applyEvent, set_state]
      split_ifs
      · exact ⟨Or.inr ⟨rfl, rfl⟩, by simp, h3, h4, by simp⟩
      · exact ⟨h1, h2, h3, h4, h5⟩
    | none =>
      cases nq with
      | none => exact ⟨h1, h2, h3, h4, h5⟩
      | some n =>
        cases s with
        | none => exact ⟨h1, h2, h3, h4, h5⟩
        | some sv =>
          simp only [applyEvent, set_state]
          split_ifs with hg
          · exact ⟨h1, h2, h3, h4, h5⟩
          · refine ⟨Or.inl rfl, by simp, h3, h4, ?_⟩
            intro n2 s2 hn hs
            simp only [Option.some.injEq] at hn hs
            subst hn; subst hs
            exact set_state_ok_bounds hg
  | range mn mx =>
    simp only [applyEvent, set_range]
    cases hmn : parse_number mn with
    | none => simp only [hmn]; exact ⟨h1, h2, h3, h4, h5⟩
    | some pmn =>
      cases hmx : parse_number mx with
      | none => simp only [hmn, hmx]; exact ⟨h1, h2, h3, h4, h5⟩
      | some pmx =>
        simp only [hmn, hmx]
        split_ifs
        · exact ⟨h1, h2, h3, h4, h5⟩
        · exact ⟨h1, h2, Or.inl rfl, by simp, h5⟩
  | dists arg =>
    cases arg with
    | str s => exact ⟨h1, h2, h3, h4, h5⟩
    | nonIterable => exact ⟨h1, h2, h3, h4, h5⟩
    | seq xs =>
      simp only [applyEvent, set_distances]
      cases hp : mapParse xs with
      | none => simp only [hp]; exact ⟨h1, h2, h3, h4, h5⟩
      | some es => simp only [hp]; exact ⟨h1, h2, Or.inr ⟨rfl, rfl⟩, by simp, h5⟩

theorem stateInv_runEvents (st : Data) (es : List Event) (h : StateInv st) :
    StateInv (runEvents st es) := by
  induction es generalizing st with
  | nil => exact h
  | cons e es ih => exact ih (applyEvent st e) (stateInv_applyEvent st e h)

theorem reachable_inv (st : Data) (h : Reachable st) : StateInv st := by
  obtain ⟨tok, es, rfl⟩ := h
  exact stateInv_runEvents (initData tok) es (stateInv_init tok)

/-- C3: after construction and any sequence of setter calls, at most one
state-encoding form is active and at most one distance-domain form is
active (a failed setter leaves the dictionary unchanged, so it preserves
the invariant trivially); moreover each successful setter that activates
one form of a pair clears the other form. -/
theorem C3_mutual_exclusion :
    (∀ st, Reachable st →
      (st.state_bin = none ∨ (st.n_qubits = none ∧ st.state = none)) ∧
      (st.distances = none ∨ (st.min_range = none ∧ st.max_range = none))) ∧
    (∀ st b nq s st2, set_state st (some b) nq s = .ok st2 →
      st2.n_qubits = none ∧ st2.state = none ∧ st2.state_bin = some b) ∧
    (∀ st n s st2, set_state st none (some n) (some s) = .ok st2 →
      st2.state_bin = none ∧ st2.n_qubits = some n ∧ st2.state = some s) ∧
    (∀ st mn mx st2, set_range st mn mx = .ok st2 →
      st2.distances = none ∧ st2.min_range ≠ none ∧ st2.max_range ≠ none) ∧
    (∀ st a st2, set_distances st a = .ok st2 →
      st2.min_range = none ∧ st2.max_range = none ∧ st2.distances ≠ none) := by
  refine ⟨?_, ?_, ?_, ?_, ?_⟩
  · intro st h
    obtain ⟨h1, _, h3, _, _⟩ := reachable_inv st h
    exact ⟨h1, h3⟩
  · intro st b nq s st2 h
    simp only [set_state] at h
    split_ifs at h
    cases h
    exact ⟨rfl, rfl, rfl⟩
  · intro st n s st2 h
    simp only [set_state] at h
    split_ifs at h
    cases h
    exact ⟨rfl, rfl, rfl⟩
  · intro st mn mx st2 h
    simp only [set_range] at h
    cases hmn : parse_number mn with
    | none => simp only [hmn] at h; cases h
    | some pmn =>
      cases hmx : parse_number mx with
      | none => simp only [hmn, hmx] at h; cases h
      | some pmx =>
        simp only [hmn, hmx] at h
        split_ifs at h
        cases h
        exact ⟨rfl, by simp, by simp⟩
  · intro st a st2 h
    cases a with
    | str s => cases h
    | nonIterable => cases h
    | seq xs =>
      simp only [set_distances] at h
      cases hp : mapParse xs with
      | none => simp only [hp] at h; cases h
      | some es =>
        simp only [hp] at h
        cases h
        exact ⟨rfl, rfl, by simp⟩

/-- Witness for C3 at a concrete reachable state: the fresh dictionary. -/
theorem C3_witness :
    ((initData "t").state_bin = none ∨
      ((initData "t").n_qubits = none ∧ (initData "t").state = none)) ∧
    ((initData "t").distances = none ∨
      ((initData "t").min_range = none ∧ (initData "t").max_range = none)) :=
  C3_mutual_exclusion.1 (initData "t") ⟨"t", [], rfl⟩

/-- C9, counterexample: the claim says `setStateByIndex` succeeds only for
a positive `numQubits`, but the code only checks
`state < 0 or state >= 2**num_qubits`, and `0 >= 2**0` is false — so
`num_qubits = 0` with `state = 0` is accepted and stored. -/
theorem C9_counterexample :
    set_state (initData "t") none (some 0) (some 0) =
      .ok { (initData "t") with
            n_qubits := some 0, state := some 0, state_bin := none } := by
  decide

/-- C9, amended: the exact success condition of `set_state` by index, in
the three regimes of Python's `2**num_qubits`.  For `numQubits ≥ 0` it
succeeds exactly when `0 ≤ stateIndex < 2^numQubits` — in particular
`numQubits = 0` is accepted with `stateIndex = 0`, so the stored
`numQubits` need not be positive.  For `numQubits` in `[-1074, -1]`,
`2**num_qubits` is a positive float below one and exactly
`stateIndex = 0` is accepted; for `numQubits ≤ -1075` it underflows to
`0.0` and every `stateIndex` is rejected.  In every reachable state the
stored index form satisfies `0 ≤ stateIndex < 2^max(numQubits, 0)`. -/
theorem C9_set_state_index :
    (∀ st n s, 0 ≤ n →
      ((∃ st2, set_state st none (some n) (some s) = .ok st2) ↔
        (0 ≤ s ∧ s < (2 : Int) ^ n.toNat))) ∧
    (∀ st n s, -1074 ≤ n → n ≤ -1 →
      ((∃ st2, set_state st none (some n) (some s) = .ok st2) ↔ s = 0)) ∧
    (∀ st n s, n ≤ -1075 →
      ¬∃ st2, set_state st none (some n) (some s) = .ok st2) ∧
    (∀ st, Reachable st → ∀ n s, st.n_qubits = some n → st.state = some s →
      0 ≤ s ∧ s < (2 : Int) ^ n.toNat) := by
  refine ⟨?_, ?_, ?_, ?_⟩
  · intro st n s hn
    simp only [set_state]
    split_ifs with hg
    · constructor
      · rintro ⟨st2, hco⟩
        cases hco
      · intro hco
        refine absurd hg ?_
        push_neg
        refine ⟨hco.1, ?_⟩
        rw [pyTwoPow, if_pos hn]
        exact_mod_cast hco.2
    · exact ⟨fun _ => set_state_ok_bounds hg, fun _ => ⟨_, rfl⟩⟩
  · intro st n s hlo hhi
    have hpy : pyTwoPow n = ((2 : ℚ) ^ (-n).toNat)⁻¹ := by
      rw [pyTwoPow, if_neg (by omega), if_pos (by omega)]
    have hpos : (0 : ℚ) < ((2 : ℚ) ^ (-n).toNat)⁻¹ := by positivity
    have hlt1 : ((2 : ℚ) ^ (-n).toNat)⁻¹ < 1 := by
      refine inv_lt_one_of_one_lt₀ ?_
      calc (1 : ℚ) < 2 := by norm_num
      _ ≤ 2 ^ (-n).toNat := le_self_pow₀ (by norm_num) (by omega)
    simp only [set_state]
    split_ifs with hg
    · constructor
      · rintro ⟨st2, hco⟩
        cases hco
      · rintro rfl
        refine absurd hg ?_
        push_neg
        refine ⟨le_refl 0, ?_⟩
        rw [hpy]
        exact_mod_cast hpos
    · constructor
      · intro _
        push_neg at hg
        obtain ⟨h0, hlt⟩ := hg
        rw [hpy] at hlt
        have hq : (s : ℚ) < 1 := lt_trans hlt hlt1
        have hs1 : s < 1 := by exact_mod_cast hq
        omega
      · rintro rfl
        exact ⟨_, rfl⟩
  · intro st n s hn
    rintro ⟨st2, hco⟩
    simp only [set_state] at hco
    have hg : s < 0 ∨ pyTwoPow n ≤ (s : ℚ) := by
      rcases lt_or_le s 0 with h | h
      · exact Or.inl h
      · refine Or.inr ?_
        rw [pyTwoPow, if_neg (by omega), if_neg (by omega)]
        exact_mod_cast h
    rw [if_pos hg] at hco
    cases hco
  · intro st h n s hn hs
    exact (reachable_inv st h).2.2.2.2 n s hn hs

/-- Witness for C9 at a concrete reachable state with the index form set. -/
theorem C9_witness :
    (0 : Int) ≤ 3 ∧ (3 : Int) < (2 : Int) ^ (2 : Int).toNat :=
  C9_set_state_index.2.2.2 (runEvents (initData "t") [Event.state none (some 2) (some 3)])
    ⟨"t", [Event.state none (some 2) (some 3)], rfl⟩ 2 3 (by decide) (by decide)

theorem charDigit_digitChar (d : Nat) (h : d < 10) :
    charDigit (digitChar d) = d := by
  interval_cases d <;> rfl

theorem valBase_append_singleton (b : Nat) (xs : List Char) (c : Char) :
    valBase b (xs ++ [c]) = b * valBase b xs + charDigit c := by
  simp [valBase, List.foldl_append]

theorem valBase_natBinary (n : Nat) : valBase 2 (natBinary n) = n := by
  induction n using Nat.strong_induction_on with
  | _ n ih =>
    match n with
    | 0 => rw [natBinary]; rfl
    | m + 1 =>
      rw [natBinary, valBase_append_singleton,
        ih ((m + 1) / 2) (Nat.div_lt_self (Nat.succ_pos m) (by norm_num)),
        charDigit_digitChar ((m + 1) % 2) (by omega)]
      exact Nat.div_add_mod (m + 1) 2

theorem valBase_natDecimals (n : Nat) : valBase 10 (natDecimals n) = n := by
  induction n using Nat.strong_induction_on with
  | _ n ih =>
    match n with
    | 0 => rw [natDecimals]; rfl
    | m + 1 =>
      rw [natDecimals, valBase_append_singleton,
        ih ((m + 1) / 10) (Nat.div_lt_self (Nat.succ_pos m) (by norm_num)),
        charDigit_digitChar ((m + 1) % 10) (by omega)]
      exact Nat.div_add_mod (m + 1) 10

theorem natBinary_length_le (n w : Nat) (h : n < 2 ^ w) :
    (natBinary n).length ≤ w := by
  induction n using Nat.strong_induction_on generalizing w with
  | _ n ih =>
    match n with
    | 0 => simp [natBinary]
    | m + 1 =>
      match w with
      | 0 => omega
      | v + 1 =>
        rw [natBinary]
        have hd : (m + 1) / 2 < 2 ^ v := by
          have h2 : 2 ^ (v + 1) = 2 * 2 ^ v := by ring
          omega
        have := ih ((m + 1) / 2)
          (Nat.div_lt_self (Nat.succ_pos m) (by norm_num)) v hd
        simp only [List.length_append, List.length_cons, List.length_nil]
        omega

theorem valBase_replicate_zero (b : Nat) (k : Nat) (l : List Char) :
    valBase b (List.replicate k '0' ++ l) = valBase b l := by
  induction k with
  | zero => rfl
  | succ k ih =>
    rw [List.replicate_succ, List.cons_append]
    show valBase b ('0' :: (List.replicate k '0' ++ l)) = valBase b l
    rw [← ih]
    simp [valBase, charDigit]

theorem natBinary_bits (n : Nat) : ∀ c ∈ natBinary n, c = '0' ∨ c = '1' := by
  induction n using Nat.strong_induction_on with
  | _ n ih =>
    match n with
    | 0 => simp [natBinary]
    | m + 1 =>
      rw [natBinary]
      intro c hc
      rcases List.mem_append.mp hc with hm | hm
      · exact ih ((m + 1) / 2) (Nat.div_lt_self (Nat.succ_pos m) (by norm_num)) c hm
      · have hb : (m + 1) % 2 < 2 := Nat.mod_lt _ (by norm_num)
        have hc0 : c = digitChar ((m + 1) % 2) := by simpa using hm
        subst hc0
        interval_cases h : (m + 1) % 2
        · exact Or.inl rfl
        · exact Or.inr rfl

/-- C4: state-encoding round trip through `SuperpositionCircuit` decoding,
in both directions.  Setting a valid index pair and decoding yields a
binary string of exactly `numQubits` characters over `{0, 1}` whose base-2
value is `stateIndex`; setting a non-empty binary string and decoding
yields `numQubits = len(b)` and `stateIndex = int(b, 2)`, with all three
state fields populated in the result. -/
theorem C4_state_roundtrip :
    (∀ st (n s : Int) res, 0 < n → 0 ≤ s → s < (2 : Int) ^ n.toNat →
      ∃ st2 c, set_state st none (some n) (some s) = .ok st2 ∧
        superpositionCircuit st2 res = some c ∧
        c.n_qubits = n ∧ c.state = s ∧
        (c.bin.data.length : Int) = n ∧
        (valBase 2 c.bin.data : Int) = s ∧
        (∀ ch ∈ c.bin.data, ch = '0' ∨ ch = '1')) ∧
    (∀ st (b : String) res, b.data ≠ [] →
      (∀ ch ∈ b.data, ch = '0' ∨ ch = '1') →
      ∃ st2 c, set_state st (some b) none none = .ok st2 ∧
        superpositionCircuit st2 res = some c ∧
        c.n_qubits = (b.data.length : Int) ∧
        c.state = (valBase 2 b.data : Int) ∧ c.bin = b) := by
  constructor
  · intro st n s res hn h0 hs
    obtain ⟨v, rfl⟩ := Int.eq_ofNat_of_zero_le h0
    have hguard : ¬((v : Int) < 0 ∨ pyTwoPow n ≤ (((v : Nat) : Int) : ℚ)) := by
      push_neg
      refine ⟨h0, ?_⟩
      rw [pyTwoPow, if_pos (le_of_lt hn)]
      exact_mod_cast hs
    have hv : v < 2 ^ n.toNat := by
      exact_mod_cast hs
    have hw : 1 ≤ n.toNat := by omega
    have hlen : (if v = 0 then ['0'] else natBinary v).length ≤ n.toNat := by
      split_ifs with h
      · simpa using hw
      · exact natBinary_length_le v n.toNat hv
    refine ⟨{ st with n_qubits := some n, state := some (v : Int), state_bin := none },
      { metric := st.metric, n_qubits := n, state := (v : Int),
        bin := formatBin n.toNat (v : Int), distances := st.distances,
        min_range := st.min_range, max_range := st.max_range,
        with_nan := st.with_nan, qasm_version := st.qasm_version,
        ancilla_mode := st.ancilla_mode, qasm := res.qasm_circuit,
        extra_qubits := res.extra_qubits,
        total_states_superposed := res.total_states_superposed },
      ?_, ?_, rfl, rfl, ?_, ?_, ?_⟩
    · simp only [set_state]
      rw [if_neg hguard]
    · simp only [superpositionCircuit]
      rw [if_neg (by omega : ¬ n < 0)]
    · show ((formatBin n.toNat (v : Int)).data.length : Int) = n
      have hdata : (formatBin n.toNat (v : Int)).data =
          List.replicate (n.toNat - (if v = 0 then ['0'] else natBinary v).length) '0' ++
            (if v = 0 then ['0'] else natBinary v) := rfl
      rw [hdata, List.length_append, List.length_replicate]
      omega
    · show ((valBase 2 (formatBin n.toNat (v : Int)).data : Nat) : Int) = (v : Int)
      have hdata : (formatBin n.toNat (v : Int)).data =
          List.replicate (n.toNat - (if v = 0 then ['0'] else natBinary v).length) '0' ++
            (if v = 0 then ['0'] else natBinary v) := rfl
      rw [hdata, valBase_replicate_zero]
      split_ifs with h
      · subst h
        rfl
      · rw [valBase_natBinary]
    · show ∀ ch ∈ (formatBin n.toNat (v : Int)).data, ch = '0' ∨ ch = '1'
      have hdata : (formatBin n.toNat (v : Int)).data =
          List.replicate (n.toNat - (if v = 0 then ['0'] else natBinary v).length) '0' ++
            (if v = 0 then ['0'] else natBinary v) := rfl
      rw [hdata]
      intro ch hch
      rcases List.mem_append.mp hch with hm | hm
      · exact Or.inl (List.eq_of_mem_replicate hm)
      · split_ifs at hm with h
        · exact Or.inl (by simpa using hm)
        · exact natBinary_bits v ch hm
  · intro st b res hne hbits
    have hlastnl : b.data.getLast? ≠ some '\n' := by
      intro hl
      have hx : '\n' ∈ b.data.getLast? := by rw [hl]; rfl
      have hmem : '\n' ∈ b.data := by
        obtain ⟨h1, h2⟩ := @List.mem_getLast?_eq_getLast Char b.data '\n' hx
        rw [h2]
        exact List.getLast_mem h1
      rcases hbits '\n' hmem with h | h <;> simp at h
    have hmatch : regexBinMatch b = true := by
      simp only [regexBinMatch, if_neg hlastnl]
      rw [Bool.and_eq_true]
      constructor
      · simpa using hne
      · rw [List.all_eq_true]
        intro c hc
        rcases hbits c hc with h | h <;> simp [h]
    refine ⟨{ st with n_qubits := none, state := none, state_bin := some b },
      { metric := st.metric, n_qubits := (b.data.length : Int),
        state := (intOfBin b.data : Int), bin := b, distances := st.distances,
        min_range := st.min_range, max_range := st.max_range,
        with_nan := st.with_nan, qasm_version := st.qasm_version,
        ancilla_mode := st.ancilla_mode, qasm := res.qasm_circuit,
        extra_qubits := res.extra_qubits,
        total_states_superposed := res.total_states_superposed },
      ?_, rfl, rfl, ?_, rfl⟩
    · simp only [set_state]
      rw [if_pos hmatch]
    · show ((intOfBin b.data : Nat) : Int) = ((valBase 2 b.data : Nat) : Int)
      simp only [intOfBin, if_neg hlastnl]

/-- Witness for C4 at a concrete pair: three qubits, state index five. -/
theorem C4_witness :
    ∃ st2 c, set_state (initData "t") none (some 3) (some 5) = .ok st2 ∧
      superpositionCircuit st2 ⟨"q", 0, 0⟩ = some c ∧
      c.n_qubits = 3 ∧ c.state = 5 ∧
      (c.bin.data.length : Int) = 3 ∧
      (valBase 2 c.bin.data : Int) = 5 ∧
      (∀ ch ∈ c.bin.data, ch = '0' ∨ ch = '1') :=
  C4_state_roundtrip.1 (initData "t") 3 5 ⟨"q", 0, 0⟩ (by decide) (by decide)
    (by decide)

theorem shapeState_other (pl0 : Payload) :
    (shapeState pl0).distances = pl0.distances ∧
    (shapeState pl0).min_range = pl0.min_range ∧
    (shapeState pl0).max_range = pl0.max_range ∧
    (shapeState pl0).with_nan = pl0.with_nan ∧
    (shapeState pl0).ancilla_mode = pl0.ancilla_mode ∧
    (shapeState pl0).qasm_version = pl0.qasm_version := by
  cases hb : pl0.state_bin <;> simp [shapeState, hb]

theorem shapeState_fields (pl0 : Payload)
    (hq : pl0.state_bin = none → pl0.n_qubits ≠ none)
    (hp : pl0.n_qubits = none ↔ pl0.state = none) :
    (pl0.state_bin ≠ none →
      (shapeState pl0).state_bin = pl0.state_bin ∧
      (shapeState pl0).n_qubits = none ∧ (shapeState pl0).state = none) ∧
    (pl0.state_bin = none →
      (shapeState pl0).state_bin = none ∧
      (shapeState pl0).n_qubits = pl0.n_qubits ∧
      (shapeState pl0).state = pl0.state ∧
      (shapeState pl0).n_qubits ≠ none ∧ (shapeState pl0).state ≠ none) := by
  cases hb : pl0.state_bin with
  | none =>
    have h1 : shapeState pl0 = pl0 := by simp [shapeState, hb]
    constructor
    · intro h
      exact absurd rfl h
    · intro _
      rw [h1]
      exact ⟨hb, rfl, rfl, hq hb, fun hst => hq hb (hp.mpr hst)⟩
  | some b =>
    have h1 : shapeState pl0 = { pl0 with state := none, n_qubits := none } := by
      simp [shapeState, hb]
    constructor
    · intro _
      rw [h1]
      exact ⟨hb, rfl, rfl⟩
    · intro h
      cases h

/-- C5: payload field shaping for every state satisfying the invoked
operation's preconditions (plus the reachable-state pairing invariants):
exactly one state form appears in the payload, mirroring the active one;
the `DistanceRange` operation's payload omits the distances, range,
`with_nan`, ancilla and qasm fields entirely; for the
extra-qubits/circuit/total-superposed group, an active range is carried
as `min_range`/`max_range` wire text with `distances` omitted, and an
active list is carried as ordered wire-text tokens with the range
omitted. -/
theorem C5_payload_shaping (st : Data) (svc : String) (pl : Payload)
    (hok : sendRequest st svc = .ok pl)
    (hpair : st.n_qubits = none ↔ st.state = none)
    (hrange : st.min_range = none ↔ st.max_range = none) :
    ((st.state_bin ≠ none →
        pl.state_bin = st.state_bin ∧ pl.n_qubits = none ∧ pl.state = none) ∧
     (st.state_bin = none →
        pl.state_bin = none ∧ pl.n_qubits = st.n_qubits ∧ pl.state = st.state ∧
        pl.n_qubits ≠ none ∧ pl.state ≠ none)) ∧
    (svc = "distances_range_service" →
      pl.distances = none ∧ pl.min_range = none ∧ pl.max_range = none ∧
      pl.with_nan = none ∧ pl.ancilla_mode = none ∧ pl.qasm_version = none) ∧
    (isGroup svc → st.distances = none →
      ∃ mn mx, st.min_range = some mn ∧ st.max_range = some mx ∧
        pl.min_range = some (renderEN mn) ∧ pl.max_range = some (renderEN mx) ∧
        pl.distances = none) ∧
    (isGroup svc → ∀ ds, st.distances = some ds →
      pl.distances = some (ds.map renderEN) ∧ pl.min_range = none ∧
      pl.max_range = none) := by
  unfold sendRequest at hok
  split_ifs at hok with hm hsn hsv hgrp hwn hdm
  all_goals cases hok
  -- the group branch
  · refine ⟨?_, ?_, ?_, ?_⟩
    · cases hd : st.distances with
      | none =>
        have hfields := shapeState_fields (groupPayload st svc)
          (by simp only [groupPayload, hd]; exact fun h hq => hsn ⟨h, hq⟩)
          (by simp only [groupPayload, hd]; exact hpair)
        simpa only [groupPayload, hd] using hfields
      | some ds =>
        have hfields := shapeState_fields (groupPayload st svc)
          (by simp only [groupPayload, hd]; exact fun h hq => hsn ⟨h, hq⟩)
          (by simp only [groupPayload, hd]; exact hpair)
        simpa only [groupPayload, hd] using hfields
    · intro hds
      exfalso
      rcases hgrp with h | h | h <;> rw [hds] at h <;> exact absurd h (by decide)
    · intro _ hd
      obtain ⟨mn, hmn⟩ : ∃ mn, st.min_range = some mn := by
        cases hmr : st.min_range with
        | none => exact absurd ⟨hd, hmr⟩ hdm
        | some x => exact ⟨x, rfl⟩
      obtain ⟨mx, hmx⟩ : ∃ mx, st.max_range = some mx := by
        cases hxr : st.max_range with
        | none => rw [hrange.mpr hxr] at hmn; cases hmn
        | some x => exact ⟨x, rfl⟩
      have hoth := shapeState_other (groupPayload st svc)
      refine ⟨mn, mx, hmn, hmx, ?_, ?_, ?_⟩
      · rw [hoth.2.1]
        simp [groupPayload, hd, hmn, renderOptEN]
      · rw [hoth.2.2.1]
        simp [groupPayload, hd, hmx, renderOptEN]
      · rw [hoth.1]
        simp [groupPayload, hd]
    · intro _ ds hds
      have hoth := shapeState_other (groupPayload st svc)
      refine ⟨?_, ?_, ?_⟩
      · rw [hoth.1]
        simp [groupPayload, hds]
      · rw [hoth.2.1]
        simp [groupPayload, hds]
      · rw [hoth.2.2.1]
        simp [groupPayload, hds]
  -- the distances-range branch
  · have hoth := shapeState_other (rangeServicePayload st svc)
    refine ⟨?_, ?_, ?_, ?_⟩
    · exact shapeState_fields (rangeServicePayload st svc)
        (fun h hq => hsn ⟨h, hq⟩) hpair
    · intro _
      exact ⟨hoth.1, hoth.2.1, hoth.2.2.1, hoth.2.2.2.1,
        hoth.2.2.2.2.1, hoth.2.2.2.2.2⟩
    · intro hg _
      exact absurd hg hgrp
    · intro hg _ _
      exact absurd hg hgrp

/-- Witness for C5 at a concrete state: metric, binary state, a distance
list and `with_nan` set, invoking the circuit service. -/
theorem C5_witness :
    ({ token := "t", metric := some "m", n_qubits := none, state := none,
       state_bin := some "01",
       distances := some (List.map renderEN [ExactNumber.Finite 1 2]),
       min_range := none, max_range := none, with_nan := some true,
       ancilla_mode := some "clean", qasm_version := some "2.0",
       service := "circuit_service" } : Payload).distances
      = some (List.map renderEN [ExactNumber.Finite 1 2]) ∧
    ({ token := "t", metric := some "m", n_qubits := none, state := none,
       state_bin := some "01",
       distances := some (List.map renderEN [ExactNumber.Finite 1 2]),
       min_range := none, max_range := none, with_nan := some true,
       ancilla_mode := some "clean", qasm_version := some "2.0",
       service := "circuit_service" } : Payload).min_range = none ∧
    ({ token := "t", metric := some "m", n_qubits := none, state := none,
       state_bin := some "01",
       distances := some (List.map renderEN [ExactNumber.Finite 1 2]),
       min_range := none, max_range := none, with_nan := some true,
       ancilla_mode := some "clean", qasm_version := some "2.0",
       service := "circuit_service" } : Payload).max_range = none :=
  (C5_payload_shaping
    { token := "t", metric := some "m", n_qubits := none, state := none,
      state_bin := some "01", distances := some [.Finite 1 2],
      min_range := none, max_range := none, with_nan := some true,
      ancilla_mode := "clean", qasm_version := "2.0" }
    "circuit_service"
    { token := "t", metric := some "m", n_qubits := none, state := none,
      state_bin := some "01",
      distances := some (List.map renderEN [ExactNumber.Finite 1 2]),
      min_range := none, max_range := none, with_nan := some true,
      ancilla_mode := some "clean", qasm_version := some "2.0",
      service := "circuit_service" }
    rfl (by simp) (by simp)).2.2.2 (Or.inl rfl) [.Finite 1 2] rfl

/-- C6: classification of `parse_number` on every (stringified) input:
`Undefined` exactly for case-insensitive `"nan"` or exact `"0/0"`;
`PositiveInfinity` exactly for case-insensitive `"inf"`; otherwise a
`Finite` value carrying the numerator/denominator pair of the rational
the text denotes, in lowest terms with positive denominator, whenever
`sympy.Rational` accepts the text; a parse failure (`ParseError`)
exactly on every remaining input; and the three regimes are pairwise
distinct values. -/
theorem C6_parse_classification (s : String) :
    (parse_number s = some .Undefined ↔ (lowerStr s = "nan" ∨ s = "0/0")) ∧
    (parse_number s = some .PositiveInfinity ↔ lowerStr s = "inf") ∧
    (∀ p q, parse_number s = some (.Finite p q) →
      0 < q ∧ Int.gcd p q = 1 ∧
      ∃ w : ℚ, ratFromString s = some w ∧ p = w.num ∧ q = (w.den : Int)) ∧
    (parse_number s = none ↔
      ¬(lowerStr s = "nan" ∨ s = "0/0") ∧ lowerStr s ≠ "inf" ∧
      ratFromString s = none) ∧
    (∀ p q, (ExactNumber.Finite p q ≠ .PositiveInfinity ∧
      ExactNumber.Finite p q ≠ .Undefined) ∧
      (ExactNumber.PositiveInfinity ≠ .Undefined)) := by
  by_cases h1 : lowerStr s = "nan" ∨ s = "0/0"
  · have hp : parse_number s = some .Undefined := by
      simp only [parse_number, if_pos h1]
    have hninf : lowerStr s ≠ "inf" := by
      rcases h1 with h | h
      · rw [h]
        decide
      · rw [h]
        decide
    refine ⟨⟨fun _ => h1, fun _ => hp⟩, ⟨fun hceq => ?_, fun hinf => absurd hinf hninf⟩,
      ?_, ⟨fun hn => ?_, fun hcon => absurd h1 hcon.1⟩,
      fun p q => ⟨⟨by simp, by simp⟩, by simp⟩⟩
    · rw [hp] at hceq
      simp at hceq
    · intro p q hpq
      rw [hp] at hpq
      simp at hpq
    · rw [hp] at hn
      cases hn
  · by_cases h2 : lowerStr s = "inf"
    · have hp : parse_number s = some .PositiveInfinity := by
        simp only [parse_number, if_neg h1, if_pos h2]
      refine ⟨⟨fun hceq => ?_, fun hna => absurd hna h1⟩, ⟨fun _ => h2, fun _ => hp⟩,
        ?_, ⟨fun hn => ?_, fun hcon => absurd h2 hcon.2.1⟩,
        fun p q => ⟨⟨by simp, by simp⟩, by simp⟩⟩
      · rw [hp] at hceq
        simp at hceq
      · intro p q hpq
        rw [hp] at hpq
        simp at hpq
      · rw [hp] at hn
        cases hn
    · cases hr : ratFromString s with
      | some w =>
        have hp : parse_number s = some (.Finite w.num (w.den : Int)) := by
          simp only [parse_number, if_neg h1, if_neg h2, hr]
        refine ⟨⟨fun hceq => ?_, fun hna => absurd hna h1⟩,
          ⟨fun hceq => ?_, fun hinf => absurd hinf h2⟩,
          ?_, ⟨fun hn => ?_, fun hcon => by cases hcon.2.2⟩,
          fun p q => ⟨⟨by simp, by simp⟩, by simp⟩⟩
        · rw [hp] at hceq
          simp at hceq
        · rw [hp] at hceq
          simp at hceq
        · intro p q hpq
          rw [hp] at hpq
          simp only [Option.some.injEq, ExactNumber.Finite.injEq] at hpq
          obtain ⟨hpn, hqd⟩ := hpq
          subst hpn
          subst hqd
          refine ⟨by exact_mod_cast w.pos, ?_, w, rfl, rfl, rfl⟩
          have hred := w.reduced
          simp only [Int.gcd, Int.natAbs_ofNat]
          exact hred
        · rw [hp] at hn
          cases hn
      | none =>
        have hp : parse_number s = none := by
          simp only [parse_number, if_neg h1, if_neg h2, hr]
        refine ⟨⟨fun hceq => ?_, fun hna => absurd hna h1⟩,
          ⟨fun hceq => ?_, fun hinf => absurd hinf h2⟩,
          ?_, ⟨fun _ => ⟨h1, h2, rfl⟩, fun _ => hp⟩,
          fun p q => ⟨⟨by simp, by simp⟩, by simp⟩⟩
        · rw [hp] at hceq
          cases hceq
        · rw [hp] at hceq
          cases hceq
        · intro p q hpq
          rw [hp] at hpq
          cases hpq

/-- Witness for C6 at concrete inputs, through the classification
theorem: `"3/4"` parses to a finite value in lowest terms. -/
theorem C6_witness :
    0 < (4 : Int) ∧ Int.gcd 3 4 = 1 ∧
    ∃ w : ℚ, ratFromString "3/4" = some w ∧ (3 : Int) = w.num ∧
      (4 : Int) = (w.den : Int) :=
  (C6_parse_classification "3/4").2.2.1 3 4 (by decide)

/-! Helper lemmas for the wire-text round trip (C8): the characters of a
rendered number, digit-run parsing, and the behaviour of the
`fractions.Fraction` literal reader on rendered integers. -/

/-- The ten ASCII digit characters. -/
abbrev digitList : List Char :=
  ['0', '1', '2', '3', '4', '5', '6', '7', '8', '9']

/-- The characters a rendered integer can contain. -/
abbrev plainCh (c : Char) : Prop :=
  c ∈ ['0', '1', '2', '3', '4', '5', '6', '7', '8', '9', '-']

/-- The characters a rendered fraction can contain. -/
abbrev plainSlash (c : Char) : Prop := plainCh c ∨ c = '/' 

theorem digitChar_mem (d : Nat) (h : d < 10) : digitChar d ∈ digitList := by
  interval_cases d <;> decide

theorem digit_facts {c : Char} (h : c ∈ digitList) :
    isDigitCh c = true ∧ isWS c = false ∧ c ≠ '+' ∧ c ≠ '-' ∧ c ≠ '/' ∧
    plainCh c := by
  simp only [digitList, List.mem_cons, List.not_mem_nil, or_false] at h
  rcases h with rfl | rfl | rfl | rfl | rfl | rfl | rfl | rfl | rfl | rfl <;>
    exact ⟨rfl, rfl, by decide, by decide, by decide, by decide⟩

theorem plain_facts {c : Char} (h : plainSlash c) :
    Char.toLower c = c ∧ isWS c = false ∧ c ≠ ' ' := by
  rcases h with h | rfl
  · simp only [plainCh, List.mem_cons, List.not_mem_nil, or_false] at h
    rcases h with rfl | rfl | rfl | rfl | rfl | rfl | rfl | rfl | rfl | rfl | rfl <;>
      exact ⟨by decide, rfl, by decide⟩
  · exact ⟨by decide, rfl, by decide⟩

theorem natDecimals_mem (n : Nat) : ∀ c ∈ natDecimals n, c ∈ digitList := by
  induction n using Nat.strong_induction_on with
  | _ n ih =>
    match n with
    | 0 => rw [natDecimals]; intro c hc; cases hc
    | m + 1 =>
      rw [natDecimals]
      intro c hc
      rcases List.mem_append.mp hc with hm | hm
      · exact ih ((m + 1) / 10) (Nat.div_lt_self (Nat.succ_pos m) (by norm_num)) c hm
      · have : c = digitChar ((m + 1) % 10) := by simpa using hm
        subst this
        exact digitChar_mem _ (Nat.mod_lt _ (by norm_num))

theorem natChars_mem (n : Nat) : ∀ c ∈ natChars n, c ∈ digitList := by
  unfold natChars
  split_ifs
  · intro c hc
    have : c = '0' := by simpa using hc
    subst this
    decide
  · exact natDecimals_mem n

theorem natChars_ne_nil (n : Nat) : natChars n ≠ [] := by
  unfold natChars
  split_ifs with h
  · simp
  · match n, h with
    | m + 1, _ =>
      rw [natDecimals]
      simp

theorem natChars_val (n : Nat) : valBase 10 (natChars n) = n := by
  unfold natChars
  split_ifs with h
  · subst h
    rfl
  · exact valBase_natDecimals n

theorem intChars_plain (p : Int) : ∀ c ∈ intChars p, plainCh c := by
  cases p with
  | ofNat n =>
    intro c hc
    exact (digit_facts (natChars_mem n c hc)).2.2.2.2.2
  | negSucc m =>
    intro c hc
    rcases List.mem_cons.mp hc with h | h
    · subst h
      decide
    · exact (digit_facts (natChars_mem (m + 1) c h)).2.2.2.2.2

theorem intChars_no_slash (p : Int) : '/' ∉ intChars p := by
  intro hc
  have h := intChars_plain p '/' hc
  simp only [plainCh, List.mem_cons, List.not_mem_nil, or_false] at h
  rcases h with h | h | h | h | h | h | h | h | h | h | h <;>
    exact absurd h (by decide)

theorem dropWhile_eq_self_of_false {p : Char → Bool} : ∀ {l : List Char},
    (∀ c ∈ l, p c = false) → l.dropWhile p = l := by
  intro l h
  cases l with
  | nil => rfl
  | cons c t =>
    rw [List.dropWhile_cons, h c (by simp)]
    simp

theorem dropWhile_eq_nil_of_true {p : Char → Bool} : ∀ {l : List Char},
    (∀ c ∈ l, p c = true) → l.dropWhile p = [] := by
  intro l
  induction l with
  | nil => exact fun _ => rfl
  | cons c t ih =>
    intro h
    rw [List.dropWhile_cons, h c (by simp)]
    simp only [if_true]
    exact ih fun d hd => h d (by simp [hd])

theorem takeWhile_eq_self_of_true {p : Char → Bool} : ∀ {l : List Char},
    (∀ c ∈ l, p c = true) → l.takeWhile p = l := by
  intro l
  induction l with
  | nil => exact fun _ => rfl
  | cons c t ih =>
    intro h
    rw [List.takeWhile_cons, h c (by simp)]
    simp only [if_true]
    rw [ih fun d hd => h d (by simp [hd])]

theorem trimWS_eq_self {l : List Char} (h : ∀ c ∈ l, isWS c = false) :
    trimWS l = l := by
  unfold trimWS
  rw [dropWhile_eq_self_of_false h,
    dropWhile_eq_self_of_false (fun c hc => h c (List.mem_reverse.mp hc)),
    List.reverse_reverse]

theorem map_toLower_eq_self {l : List Char} (h : ∀ c ∈ l, Char.toLower c = c) :
    l.map Char.toLower = l := by
  induction l with
  | nil => rfl
  | cons c t ih =>
    rw [List.map_cons, h c (by simp), ih fun d hd => h d (by simp [hd])]

theorem lowerStr_plain {l : List Char} (h : ∀ c ∈ l, plainSlash c) :
    lowerStr ⟨l⟩ = ⟨l⟩ := by
  unfold lowerStr
  rw [show (String.mk l).data = l from rfl,
    map_toLower_eq_self fun c hc => (plain_facts (h c hc)).1]

theorem mk_ne_nan_inf {l : List Char} (h : ∀ c ∈ l, plainSlash c) :
    (⟨l⟩ : String) ≠ "nan" ∧ (⟨l⟩ : String) ≠ "inf" := by
  constructor <;> intro he <;>
    [have hd : l = ['n', 'a', 'n'] := congrArg String.data he;
     have hd : l = ['i', 'n', 'f'] := congrArg String.data he]
  · have hn := h 'n' (by rw [hd]; simp)
    rcases hn with hn | hn
    · exact absurd hn (by decide)
    · exact absurd hn (by decide)
  · have hn := h 'i' (by rw [hd]; simp)
    rcases hn with hn | hn
    · exact absurd hn (by decide)
    · exact absurd hn (by decide)

theorem mk_ne_00 {l : List Char} (h : '/' ∉ l) : (⟨l⟩ : String) ≠ "0/0" := by
  intro he
  have hd : l = ['0', '/', '0'] := congrArg String.data he
  exact h (by rw [hd]; simp)

theorem fracLitCore_digits (l : List Char) (hne : l ≠ [])
    (h : ∀ c ∈ l, isDigitCh c = true) :
    fracLitCore l = some ((valBase 10 l : Nat) : ℚ) := by
  have h1 : l.takeWhile isDigitCh = l := takeWhile_eq_self_of_true h
  have h2 : l.dropWhile isDigitCh = [] := dropWhile_eq_nil_of_true h
  simp only [fracLitCore, h1, h2]
  rw [if_neg hne]
  simp [parseExp, ratOfParts]

theorem fracLit_natChars (n : Nat) : fracLit (natChars n) = some ((n : Nat) : ℚ) := by
  have hmem := natChars_mem n
  have hws : ∀ c ∈ natChars n, isWS c = false :=
    fun c hc => (digit_facts (hmem c hc)).2.1
  unfold fracLit
  rw [trimWS_eq_self hws]
  cases hnc : natChars n with
  | nil => exact absurd hnc (natChars_ne_nil n)
  | cons c rest =>
    have hcmem : c ∈ digitList := hmem c (by rw [hnc]; simp)
    show (if c = '+' then fracLitCore rest
      else if c = '-' then Option.map (fun q => -q) (fracLitCore rest)
      else fracLitCore (c :: rest)) = some ((n : Nat) : ℚ)
    rw [if_neg (digit_facts hcmem).2.2.1, if_neg (digit_facts hcmem).2.2.2.1,
      ← hnc,
      fracLitCore_digits (natChars n) (natChars_ne_nil n)
        (fun d hd => (digit_facts (hmem d hd)).1),
      natChars_val]

theorem fracLit_intChars (p : Int) : fracLit (intChars p) = some ((p : Int) : ℚ) := by
  cases p with
  | ofNat n =>
    rw [show intChars (Int.ofNat n) = natChars n from rfl, fracLit_natChars]
    norm_num
  | negSucc m =>
    have hmem := natChars_mem (m + 1)
    have hws : ∀ c ∈ '-' :: natChars (m + 1), isWS c = false := by
      intro c hc
      rcases List.mem_cons.mp hc with h | h
      · subst h
        rfl
      · exact (digit_facts (hmem c h)).2.1
    rw [show intChars (Int.negSucc m) = '-' :: natChars (m + 1) from rfl]
    unfold fracLit
    rw [trimWS_eq_self hws]
    show (if '-' = '+' then fracLitCore (natChars (m + 1))
      else if '-' = '-' then Option.map (fun q => -q) (fracLitCore (natChars (m + 1)))
      else fracLitCore ('-' :: natChars (m + 1))) = some ((Int.negSucc m : Int) : ℚ)
    rw [if_neg (by decide), if_pos rfl,
      fracLitCore_digits (natChars (m + 1)) (natChars_ne_nil (m + 1))
        (fun d hd => (digit_facts (hmem d hd)).1), natChars_val]
    rw [Int.cast_negSucc]
    norm_num

theorem splitOnSlash_none {l : List Char} (h : '/' ∉ l) :
    splitOnSlash l = none := by
  induction l with
  | nil => rfl
  | cons c t ih =>
    rw [splitOnSlash, if_neg (fun hc => h (by rw [hc]; simp)),
      ih fun hm => h (List.mem_cons_of_mem c hm)]

theorem splitOnSlash_append {xs : List Char} (ys : List Char) (h : '/' ∉ xs) :
    splitOnSlash (xs ++ '/' :: ys) = some (xs, ys) := by
  induction xs with
  | nil => simp [splitOnSlash]
  | cons c t ih =>
    rw [List.cons_append, splitOnSlash,
      if_neg (fun hc => h (by rw [hc]; simp)),
      ih fun hm => h (List.mem_cons_of_mem c hm)]

theorem ratFromString_intChars (p : Int) :
    ratFromString ⟨intChars p⟩ = some ((p : Int) : ℚ) := by
  have hns := intChars_no_slash p
  have hplain := intChars_plain p
  have hfil : ∀ a ∈ intChars p, (decide (a ≠ ' ')) = true := fun a ha =>
    decide_eq_true (plain_facts (Or.inl (hplain a ha))).2.2
  simp only [ratFromString]
  rw [List.count_eq_zero.mpr hns, if_neg (by omega),
    List.filter_eq_self.mpr hfil, splitOnSlash_none hns, fracLit_intChars]

theorem ratFromString_pairChars (pn : Int) (q : Nat) (hq0 : q ≠ 0) :
    ratFromString ⟨intChars pn ++ '/' :: natChars q⟩ =
      some ((pn : ℚ) / (q : ℚ)) := by
  have hnsp := intChars_no_slash pn
  have hplainp := intChars_plain pn
  have hmemq := natChars_mem q
  have hnsq : '/' ∉ natChars q := fun hm =>
    (digit_facts (hmemq _ hm)).2.2.2.2.1 rfl
  have hcount : List.count '/' (intChars pn ++ '/' :: natChars q) = 1 := by
    rw [List.count_append, List.count_eq_zero.mpr hnsp, List.count_cons,
      List.count_eq_zero.mpr hnsq]
    simp
  have hfil : ∀ a ∈ intChars pn ++ '/' :: natChars q,
      (decide (a ≠ ' ')) = true := by
    intro a ha
    rcases List.mem_append.mp ha with hm | hm
    · exact decide_eq_true (plain_facts (Or.inl (hplainp a hm))).2.2
    · rcases List.mem_cons.mp hm with hm2 | hm2
      · subst hm2
        decide
      · exact decide_eq_true
          (plain_facts (Or.inl (digit_facts (hmemq a hm2)).2.2.2.2.2)).2.2
  simp only [ratFromString]
  rw [hcount, if_neg (by omega), List.filter_eq_self.mpr hfil,
    splitOnSlash_append (natChars q) hnsp]
  show (match fracLit (intChars pn), fracLit (natChars q) with
    | some x, some y => if y = 0 then none else some (x / y)
    | _, _ => none) = some ((pn : ℚ) / (q : ℚ))
  rw [fracLit_intChars, fracLit_natChars]
  show (if ((q : Nat) : ℚ) = 0 then none
    else some ((pn : ℚ) / ((q : Nat) : ℚ))) = some ((pn : ℚ) / (q : ℚ))
  rw [if_neg (by exact_mod_cast hq0)]

theorem parse_render_finite (w : ℚ) :
    parse_number (renderEN (.Finite w.num (w.den : Int))) =
      some (.Finite w.num (w.den : Int)) := by
  by_cases hd : w.den = 1
  · have hrd : renderEN (.Finite w.num (w.den : Int)) = ⟨intChars w.num⟩ := by
      simp [renderEN, hd]
    rw [hrd]
    have hplain : ∀ c ∈ intChars w.num, plainSlash c :=
      fun c hc => Or.inl (intChars_plain w.num c hc)
    have hne := mk_ne_nan_inf hplain
    have h00 := mk_ne_00 (intChars_no_slash w.num)
    unfold parse_number
    rw [lowerStr_plain hplain, if_neg (by push_neg; exact ⟨hne.1, h00⟩),
      if_neg hne.2, ratFromString_intChars]
    show some (ExactNumber.Finite ((w.num : ℚ)).num (((w.num : ℚ)).den : Int)) =
      some (.Finite w.num (w.den : Int))
    rw [Rat.num_intCast, Rat.den_intCast, hd]
  · have hq0 : w.den ≠ 0 := Nat.pos_iff_ne_zero.mp w.pos
    have hrd : renderEN (.Finite w.num (w.den : Int)) =
        ⟨intChars w.num ++ '/' :: natChars w.den⟩ := by
      simp only [renderEN]
      rw [if_neg (by exact_mod_cast hd)]
      rw [show intChars ((w.den : Nat) : Int) = natChars w.den from rfl]
    rw [hrd]
    have hplainS : ∀ c ∈ intChars w.num ++ '/' :: natChars w.den,
        plainSlash c := by
      intro c hc
      rcases List.mem_append.mp hc with hm | hm
      · exact Or.inl (intChars_plain w.num c hm)
      · rcases List.mem_cons.mp hm with hm2 | hm2
        · exact Or.inr hm2
        · exact Or.inl (digit_facts (natChars_mem w.den c hm2)).2.2.2.2.2
    have hne := mk_ne_nan_inf hplainS
    have h00 : (⟨intChars w.num ++ '/' :: natChars w.den⟩ : String) ≠ "0/0" := by
      intro he
      have hdg : intChars w.num ++ '/' :: natChars w.den = ['0', '/', '0'] :=
        congrArg String.data he
      have hsp := congrArg splitOnSlash hdg
      rw [splitOnSlash_append (natChars w.den) (intChars_no_slash w.num),
        show splitOnSlash ['0', '/', '0'] = some (['0'], ['0']) from rfl] at hsp
      simp only [Option.some.injEq, Prod.mk.injEq] at hsp
      have hzero : w.den = 0 := by
        have hval := congrArg (valBase 10) hsp.2
        rw [natChars_val, show valBase 10 ['0'] = 0 from by decide] at hval
        exact hval
      exact hq0 hzero
    unfold parse_number
    rw [lowerStr_plain hplainS, if_neg (by push_neg; exact ⟨hne.1, h00⟩),
      if_neg hne.2, ratFromString_pairChars w.num w.den hq0]
    show some (ExactNumber.Finite ((w.num : ℚ) / (w.den : ℚ)).num
        ((((w.num : ℚ) / (w.den : ℚ)).den : Nat) : Int)) =
      some (.Finite w.num (w.den : Int))
    rw [Rat.num_div_den]

/-- C8: the wire-text round trip is the identity on parsed values — for
every input the parser accepts, rendering the result with the same
`str()` rendering `_send_request` uses (`Finite` to canonical rational
text, `PositiveInfinity` to `"inf"`, `Undefined` to `"nan"`) and
re-parsing yields the same value. -/
theorem C8_wire_roundtrip (x : String) (e : ExactNumber)
    (h : parse_number x = some e) :
    parse_number (renderEN e) = some e := by
  unfold parse_number at h
  split_ifs at h with h1 h2
  · cases h
    decide
  · cases h
    decide
  · cases hr : ratFromString x with
    | none =>
      rw [hr] at h
      cases h
    | some w =>
      rw [hr] at h
      cases h
      exact parse_render_finite w

/-- Witness for C8 at the spec's example input `"1/2"`. -/
theorem C8_witness :
    parse_number (renderEN (.Finite 1 2)) = some (.Finite 1 2) :=
  C8_wire_roundtrip "1/2" (.Finite 1 2) (by decide)

end Qsimov
